import Mathlib

/-!
Verification of the tango in-memory project model against its code.

Part 1 embeds `src/packages/setting-form/src/form.tsx`
(`normalizeComponentProps`, `filterComponentProps`).
Part 2 models the core engine (files, nodes, history, workspace) whose
implementation is not shipped under `src/` (only the interface
declarations `IViewFile` / `IViewNode` / `IWorkspace` are); those
definitions are modelled from the spec and are marked as such.
-/

namespace Tango

/-- Embedding of `ComponentPropType` from tango-helpers as used by
`form.tsx`: a prop descriptor with `name`, `title`, an optional `group`
tag and optional nested child descriptors under the `props` key
(absent children are modelled as the empty list). -/
inductive ComponentProp where
  | mk (name : String) (title : String) (group : Option String)
       (props : List ComponentProp)
deriving Repr

def ComponentProp.name : ComponentProp → String
  | .mk n _ _ _ => n

def ComponentProp.title : ComponentProp → String
  | .mk _ t _ _ => t

def ComponentProp.group : ComponentProp → Option String
  | .mk _ _ g _ => g

def ComponentProp.props : ComponentProp → List ComponentProp
  | .mk _ _ _ ps => ps

/-- Embedding of the JS expression `prop.group || 'basic'` from
`normalizeComponentProps` (form.tsx line 21): `undefined` and the empty
string are both falsy, so both fall back to `'basic'`. -/
def groupKey (p : ComponentProp) : String :=
  match p.group with
  | none => "basic"
  | some g => if g = "" then "basic" else g

/-- Embedding of `groups[group].push(prop)` together with JS object
key-insertion order: pushing under an existing key appends to that
key's list in place, a fresh key is appended at the end. -/
def pushGroup (gs : List (String × List ComponentProp)) (key : String)
    (p : ComponentProp) : List (String × List ComponentProp) :=
  match gs with
  | [] => [(key, [p])]
  | (k, l) :: rest =>
      if k = key then (k, l ++ [p]) :: rest else (k, l) :: pushGroup rest key p

/-- Embedding of `normalizeComponentProps` (form.tsx lines 18-29): a
left fold over the props, pushing each prop into the bucket named by
`prop.group || 'basic'`; the resulting JS record is modelled as an
insertion-ordered association list. -/
def normalizeComponentProps (props : List ComponentProp) :
    List (String × List ComponentProp) :=
  props.foldl (fun gs p => pushGroup gs (groupKey p) p) []

/-- Reading `groups[g]` off the result record, with a missing key read
as the empty group. -/
def lookupGroup (gs : List (String × List ComponentProp)) (g : String) :
    List ComponentProp :=
  ((gs.lookup g).getD [])

theorem lookupGroup_nil (g : String) : lookupGroup [] g = [] := rfl

theorem lookupGroup_cons (k : String) (l : List ComponentProp)
    (tl : List (String × List ComponentProp)) (g : String) :
    lookupGroup ((k, l) :: tl) g = if g = k then l else lookupGroup tl g := by
  by_cases h : g = k
  · have hbeq : (g == k) = true := beq_iff_eq.mpr h
    simp [lookupGroup, List.lookup_cons, hbeq, h]
  · have hbeq : (g == k) = false := beq_eq_false_iff_ne.mpr h
    simp [lookupGroup, List.lookup_cons, hbeq, h]

theorem lookup_pushGroup (gs : List (String × List ComponentProp))
    (key : String) (p : ComponentProp) (g : String) :
    lookupGroup (pushGroup gs key p) g
      = lookupGroup gs g ++ (if g = key then [p] else []) := by
  induction gs with
  | nil =>
      by_cases h : g = key <;>
        simp [pushGroup, lookupGroup_cons, lookupGroup_nil, h]
  | cons hd tl ih =>
      obtain ⟨k, l⟩ := hd
      simp only [pushGroup]
      by_cases hk : k = key
      · rw [if_pos hk]
        by_cases hg : g = k
        · rw [lookupGroup_cons, lookupGroup_cons, if_pos hg, if_pos hg,
            if_pos (hg.trans hk)]
        · rw [lookupGroup_cons, lookupGroup_cons, if_neg hg, if_neg hg,
            if_neg (fun hc => hg (hc.trans hk.symm))]
          simp
      · rw [if_neg hk]
        by_cases hg : g = k
        · rw [lookupGroup_cons, lookupGroup_cons, if_pos hg, if_pos hg,
            if_neg (fun hc => hk (hg.symm.trans hc))]
          simp
        · rw [lookupGroup_cons, lookupGroup_cons, if_neg hg, if_neg hg, ih]

theorem lookup_normalize_aux (props : List ComponentProp)
    (gs : List (String × List ComponentProp)) (g : String) :
    lookupGroup (props.foldl (fun acc p => pushGroup acc (groupKey p) p) gs) g
      = lookupGroup gs g ++ props.filter (fun p => groupKey p == g) := by
  induction props generalizing gs with
  | nil => simp
  | cons p rest ih =>
      simp only [List.foldl_cons, List.filter_cons]
      rw [ih, lookup_pushGroup]
      by_cases h : g = groupKey p
      · simp [h, List.append_assoc]
      · have h' : (groupKey p == g) = false := by
          simp only [beq_eq_false_iff_ne, ne_eq]
          exact fun hh => h hh.symm
        simp [h, h']

/-- Values of the result record, flattened in record order. -/
def flatGroups (gs : List (String × List ComponentProp)) :
    List ComponentProp :=
  gs.flatMap (fun e => e.2)

theorem flatGroups_cons (k : String) (l : List ComponentProp)
    (tl : List (String × List ComponentProp)) :
    flatGroups ((k, l) :: tl) = l ++ flatGroups tl := rfl

theorem flatGroups_pushGroup (gs : List (String × List ComponentProp))
    (key : String) (p : ComponentProp) :
    (flatGroups (pushGroup gs key p)).Perm (flatGroups gs ++ [p]) := by
  induction gs with
  | nil => simp [pushGroup, flatGroups]
  | cons hd tl ih =>
      obtain ⟨k, l⟩ := hd
      simp only [pushGroup]
      by_cases hk : k = key
      · rw [if_pos hk, flatGroups_cons, flatGroups_cons]
        have h2 : (([p] ++ flatGroups tl) : List ComponentProp).Perm
            (flatGroups tl ++ [p]) := List.perm_append_comm
        have h3 := List.Perm.append_left l h2
        rw [← List.append_assoc, ← List.append_assoc] at h3
        exact h3
      · rw [if_neg hk, flatGroups_cons, flatGroups_cons]
        have h2 := List.Perm.append_left l ih
        rw [← List.append_assoc] at h2
        exact h2

theorem flatGroups_normalize_aux (props : List ComponentProp)
    (gs : List (String × List ComponentProp)) :
    (flatGroups (props.foldl (fun acc p => pushGroup acc (groupKey p) p) gs)).Perm
      (flatGroups gs ++ props) := by
  induction props generalizing gs with
  | nil => simp
  | cons p rest ih =>
      simp only [List.foldl_cons]
      have h1 := ih (pushGroup gs (groupKey p) p)
      have h2 := (flatGroups_pushGroup gs (groupKey p) p).append_right rest
      have h3 := h1.trans h2
      simpa using h3

/-- C8 (amended): `normalizeComponentProps` partitions the props into
groups keyed by `prop.group || 'basic'` — a prop lands in the group
named by its `group` field when that field is present and non-empty,
and in `'basic'` when it is absent **or empty**; within each group the
relative order matches the input order (each group is exactly the input
filtered to that key), and the union of all groups is a permutation of
the input list, so each prop appears exactly once across the groups. -/
theorem normalizeComponentProps_partitions (props : List ComponentProp) :
    (∀ g : String,
        lookupGroup (normalizeComponentProps props) g
          = props.filter (fun p => groupKey p == g)) ∧
      (flatGroups (normalizeComponentProps props)).Perm props := by
  constructor
  · intro g
    have h := lookup_normalize_aux props [] g
    simpa [normalizeComponentProps, lookupGroup] using h
  · have h := flatGroups_normalize_aux props []
    simpa [normalizeComponentProps, flatGroups] using h

/-- C8 counterexample: a prop whose `group` field is the **empty
string** is placed in `'basic'`, not in the group named by its group
field (`""`), because `prop.group || 'basic'` treats the empty string
as falsy; this refutes the claim that every prop with a present group
field lands in the group of that name. -/
theorem normalizeComponentProps_empty_group_counterexample :
    lookupGroup
        (normalizeComponentProps [ComponentProp.mk "x" "x" (some "") []]) ""
      = [] ∧
    lookupGroup
        (normalizeComponentProps [ComponentProp.mk "x" "x" (some "") []]) "basic"
      = [ComponentProp.mk "x" "x" (some "") []] := by
  constructor <;>
    simp [normalizeComponentProps, pushGroup, groupKey, lookupGroup,
      ComponentProp.group, List.lookup]

/-- First index at or after the head of `hay` where `pat` occurs as a
contiguous sublist, if any. -/
def firstMatchPos (pat hay : List Char) : Option Nat :=
  match hay with
  | [] => if pat.isEmpty then some 0 else none
  | _ :: t =>
      if pat.isPrefixOf hay then some 0 else (firstMatchPos pat t).map (· + 1)

/-- Modelled from the spec: `form.tsx` builds `new RegExp(keyword, 'ig')`
once and calls `pattern.test(...)` repeatedly; the RegExp engine itself is
external to `src/`. This models `test` for keywords that contain no regex
metacharacters: a case-insensitive (per-`Char` lowercasing) literal
search that starts at the regex object's mutable `lastIndex`; a hit
returns `true` and advances `lastIndex` past the match, a miss returns
`false` and resets `lastIndex` to `0` — the stateful semantics the `'g'`
flag gives `RegExp.prototype.test` in JS. `pat` is the lowercased
keyword. -/
def regexTestCI (pat : List Char) (s : String) (lastIndex : Nat) : Bool × Nat :=
  let hay := s.toList.map Char.toLower
  match firstMatchPos pat (hay.drop lastIndex) with
  | some i => (true, lastIndex + i + pat.length)
  | none => (false, 0)

/-- Embedding of the predicate `(prop) => pattern.test(prop.title) ||
pattern.test(prop.name)` from `filterComponentProps` (form.tsx line 38),
with the shared RegExp's `lastIndex` threaded explicitly; `||`
short-circuits, so `name` is only tested when `title` missed. -/
def propTest (pat : List Char) (p : ComponentProp) (st : Nat) : Bool × Nat :=
  match regexTestCI pat p.title st with
  | (true, st1) => (true, st1)
  | (false, st1) => regexTestCI pat p.name st1

/-- Modelled from the spec: `filterTreeData` lives in the repository's
tango-helpers package, which is not under `src/`. Per the form contract
("produce a grouped, filterable set of editable property descriptors")
and its call site, it filters a descriptor tree, recursing through the
nested `props` children: a node whose test hits is kept (with its
children filtered in turn); a node whose test misses is kept exactly
when some filtered child survives. The predicate state is threaded in
JS evaluation order — a node, then its children, then its later
siblings. -/
def filterTreeData (pred : ComponentProp → Nat → Bool × Nat) :
    List ComponentProp → Nat → List ComponentProp × Nat
  | [], st => ([], st)
  | .mk nm ti gr ps :: rest, st =>
      let r1 := pred (.mk nm ti gr ps) st
      let r2 := filterTreeData pred ps r1.2
      let r3 := filterTreeData pred rest r2.2
      if r1.1 then (.mk nm ti gr r2.1 :: r3.1, r3.2)
      else if r2.1.isEmpty then (r3.1, r3.2)
      else (.mk nm ti gr r2.1 :: r3.1, r3.2)

/-- Embedding of `filterComponentProps` (form.tsx lines 31-41): an empty
(falsy) keyword returns the input unchanged; otherwise the props tree is
filtered with the stateful case-insensitive test built from the single
shared `RegExp(keyword, 'ig')`. -/
def filterComponentProps (props : List ComponentProp) (keyword : String) :
    List ComponentProp :=
  if keyword = "" then props
  else (filterTreeData (propTest (keyword.toList.map Char.toLower)) props 0).1

/-- C9: `filterComponentProps` with the empty (the only falsy) keyword
returns the input props list itself, unchanged. -/
theorem filterComponentProps_empty_keyword (props : List ComponentProp) :
    filterComponentProps props "" = props := rfl

/-- C10 (code bug witness): the shared `RegExp(keyword, 'ig')` makes
`test` stateful, so whether a prop is kept depends on the other props.
With `p = {name: "x", title: "a"}` and keyword `"a"`, the list `[p]`
keeps `p`, but in `[p, p]` only the first copy survives: the first
title match advances `lastIndex` past position 0, the second title test
starts beyond the end of `"a"` and fails, refuting both the
"keeps exactly those whose title or name matches" and the independence
parts of the claim. -/
theorem filterComponentProps_global_flag_bug :
    filterComponentProps
        [ComponentProp.mk "x" "a" none [], ComponentProp.mk "x" "a" none []]
        "a"
      = [ComponentProp.mk "x" "a" none []] ∧
    filterComponentProps [ComponentProp.mk "x" "a" none []] "a"
      = [ComponentProp.mk "x" "a" none []] := by
  constructor <;>
    simp [filterComponentProps, filterTreeData, propTest, regexTestCI,
      firstMatchPos, ComponentProp.title, ComponentProp.name,
      List.isPrefixOf, String.toList]

/-! ## Part 2: the core engine.

`src/unnamed/part_000` ships only the interface declarations
(`IViewFile`, `IViewNode`, `IWorkspace`); the implementing classes are
not under `src/`. All definitions below are therefore modelled from the
spec (§3 data model, §4 component design, §7 error handling), faithful
to its words, and the engine claims are settled against this model. -/

/-- Modelled from the spec (§7): the error taxonomy. -/
inductive Err where
  | ParseError
  | NotFound
  | InvalidTarget
  | NameConflict
  | ImportConflict
  | UnknownComponent
  | NoSelection
  | NothingToUndo
  | NothingToRedo
deriving Repr, DecidableEq

/-- Modelled from the spec (§3 Node): a raw (not yet id-assigned) view
tree node — a component reference, an attribute mapping and an ordered
child sequence; this is what `parse` reads out of the text and what
callers pass as `newNode`. -/
inductive RawNode where
  | mk (component : String) (attrs : List (String × String))
       (children : List RawNode)
deriving Repr

/-- Modelled from the spec (§3 Node): a node of a View File's tree,
carrying its stable identifier. -/
inductive VNode where
  | mk (id : Nat) (component : String) (attrs : List (String × String))
       (children : List VNode)
deriving Repr

def VNode.id : VNode → Nat
  | .mk i _ _ _ => i

def VNode.component : VNode → String
  | .mk _ c _ _ => c

def VNode.attrs : VNode → List (String × String)
  | .mk _ _ a _ => a

def VNode.children : VNode → List VNode
  | .mk _ _ _ cs => cs

/-- Induction over a raw forest, with a node motive and a forest
motive. -/
theorem rawIndF (P : RawNode → Prop) (Q : List RawNode → Prop)
    (hmk : ∀ c a cs, Q cs → P (.mk c a cs))
    (hnil : Q [])
    (hcons : ∀ n l, P n → Q l → Q (n :: l)) :
    ∀ l, Q l :=
  fun l =>
    List.rec hnil
      (fun n tl ih =>
        hcons n tl (@RawNode.rec P Q hmk hnil hcons n) ih) l

/-- Induction over a view forest, with a node motive and a forest
motive. -/
theorem vIndF (P : VNode → Prop) (Q : List VNode → Prop)
    (hmk : ∀ i c a cs, Q cs → P (.mk i c a cs))
    (hnil : Q [])
    (hcons : ∀ n l, P n → Q l → Q (n :: l)) :
    ∀ l, Q l :=
  fun l =>
    List.rec hnil
      (fun n tl ih =>
        hcons n tl (@VNode.rec P Q hmk hnil hcons n) ih) l

/-- Modelled from the spec (§4.1 `render`): the textual rendering of a
File's tree, at token granularity — an opening token with the component
name, one token per attribute, the children, a closing token. -/
inductive Tok where
  | nodeOpen (component : String)
  | nodeAttr (key value : String)
  | nodeClose
deriving Repr, DecidableEq

def renderAttrs (attrs : List (String × String)) : List Tok :=
  attrs.map (fun a => .nodeAttr a.1 a.2)

/-- Modelled from the spec (§4.1 `render`): deterministic rendering of a
raw forest to text (token sequence). -/
def renderF : List RawNode → List Tok
  | [] => []
  | .mk c a cs :: rest =>
      (.nodeOpen c :: (renderAttrs a ++ renderF cs ++ [.nodeClose]))
        ++ renderF rest

/-- One frame of the parser stack: the component of the currently open
node, its attributes so far, and its children so far (reversed). -/
abbrev Frame := String × List (String × String) × List RawNode

/-- Modelled from the spec (§4.1 `parse`): a single-pass stack parser of
the token text; ill-formed input (stray attribute/close, unclosed node)
yields `none`, which the File layer surfaces as `ParseError`. -/
def parseLoop : List Tok → List Frame → List RawNode → Option (List RawNode)
  | [], [], acc => some acc.reverse
  | [], _ :: _, _ => none
  | .nodeOpen c :: rest, stack, acc =>
      parseLoop rest ((c, [], []) :: stack) acc
  | .nodeAttr k v :: rest, (c, as, cs) :: stack, acc =>
      parseLoop rest ((c, as ++ [(k, v)], cs) :: stack) acc
  | .nodeAttr _ _ :: _, [], _ => none
  | .nodeClose :: _, [], _ => none
  | .nodeClose :: rest, (c, as, cs) :: stack, acc =>
      match stack with
      | [] => parseLoop rest [] (RawNode.mk c as cs.reverse :: acc)
      | (c2, as2, cs2) :: stack2 =>
          parseLoop rest
            ((c2, as2, RawNode.mk c as cs.reverse :: cs2) :: stack2) acc

/-- Number of nodes of a raw forest. -/
def sizeF : List RawNode → Nat
  | [] => 0
  | .mk _ _ cs :: rest => 1 + sizeF cs + sizeF rest

/-- Modelled from the spec (§3 Node): identifiers are assigned at
parse/creation time from a per-file counter that is never reused;
assignment numbers a forest in preorder, returning the next fresh id. -/
def assignIdsF : List RawNode → Nat → List VNode × Nat
  | [], k => ([], k)
  | .mk c a cs :: rest, k =>
      let p1 := assignIdsF cs (k + 1)
      let p2 := assignIdsF rest p1.2
      (VNode.mk k c a p1.1 :: p2.1, p2.2)

/-- Id assignment for a single raw node. -/
def assignIds (r : RawNode) (k : Nat) : VNode × Nat :=
  match r with
  | .mk c a cs =>
      (VNode.mk k c a (assignIdsF cs (k + 1)).1, (assignIdsF cs (k + 1)).2)

/-- Forgets the identifiers of a view forest. -/
def stripIdsF : List VNode → List RawNode
  | [] => []
  | .mk _ c a cs :: rest => .mk c a (stripIdsF cs) :: stripIdsF rest

/-- Forgets the identifiers of a single view node. -/
def stripId (v : VNode) : RawNode :=
  match v with
  | .mk _ c a cs => .mk c a (stripIdsF cs)

/-- Modelled from the spec (§4.1 `parse`): parse the text and assign
fresh preorder identifiers from `0`, also returning the next fresh id
(the file's id counter). -/
def parseToks (toks : List Tok) : Option (List VNode × Nat) :=
  (parseLoop toks [] []).map (fun rs => assignIdsF rs 0)

/-- Rendering of an id-carrying view forest: identifiers are not part of
the text. -/
def renderVF (vs : List VNode) : List Tok :=
  renderF (stripIdsF vs)

/-- All identifiers of a view forest, in preorder. -/
def nodeIdsF : List VNode → List Nat
  | [] => []
  | .mk i _ _ cs :: rest => i :: (nodeIdsF cs ++ nodeIdsF rest)

/-- The signature (id, component, attributes) of every node of a view
forest, in preorder; a node "keeps its id" across an edit exactly when
its signature is still present afterwards. -/
def sigsF : List VNode → List (Nat × String × List (String × String))
  | [] => []
  | .mk i c a cs :: rest => (i, c, a) :: (sigsF cs ++ sigsF rest)

/-- Modelled from the spec (§4.1 `insertChild`): the four insertion
positions. -/
inductive InsertPos where
  | append
  | prepend
  | beforeSib (sib : Nat)
  | afterSib (sib : Nat)
deriving Repr, DecidableEq

/-- Modelled from the spec (§4.1 `insertChild`): components that cannot
accept children ("e.g., a leaf-only component"). -/
def leafOnlyComponents : List String := ["Text"]

def leafOnly (c : String) : Bool := leafOnlyComponents.contains c

/-- Inserts `v` into a child list at the requested position; `none` when
the position names a sibling that is not there (an invalid position). -/
def insertAt (children : List VNode) (v : VNode) (pos : InsertPos) :
    Option (List VNode) :=
  match pos with
  | .append => some (children ++ [v])
  | .prepend => some (v :: children)
  | .beforeSib s =>
      match children.findIdx? (fun c => c.id == s) with
      | some i => some (children.take i ++ v :: children.drop i)
      | none => none
  | .afterSib s =>
      match children.findIdx? (fun c => c.id == s) with
      | some i => some (children.take (i + 1) ++ v :: children.drop (i + 1))
      | none => none

/-- Modelled from the spec (§4.1 `insertChild`): rewrite the forest by
inserting `v` under the node with id `target`; `none` when the target
does not occur, `some (.error _)` when it does but is leaf-only or the
position is invalid. -/
def insertChildF (target : Nat) (v : VNode) (pos : InsertPos) :
    List VNode → Option (Except Err (List VNode))
  | [] => none
  | .mk i c a cs :: rest =>
      if i = target then
        some (if leafOnly c then .error .InvalidTarget
              else
                match insertAt cs v pos with
                | some cs' => .ok (VNode.mk i c a cs' :: rest)
                | none => .error .InvalidTarget)
      else
        match insertChildF target v pos cs with
        | some (.ok cs') => some (.ok (VNode.mk i c a cs' :: rest))
        | some (.error e) => some (.error e)
        | none =>
            match insertChildF target v pos rest with
            | some (.ok rest') => some (.ok (VNode.mk i c a cs :: rest'))
            | some (.error e) => some (.error e)
            | none => none

/-- Modelled from the spec (§4.1 `removeNode`): detach the subtree
rooted at `target`, returning the detached subtree and the remaining
forest; `none` when the id is absent. -/
def removeNodeF (target : Nat) : List VNode → Option (VNode × List VNode)
  | [] => none
  | .mk i c a cs :: rest =>
      if i = target then some (.mk i c a cs, rest)
      else
        match removeNodeF target cs with
        | some (sub, cs') => some (sub, .mk i c a cs' :: rest)
        | none =>
            match removeNodeF target rest with
            | some (sub, rest') => some (sub, .mk i c a cs :: rest')
            | none => none

/-- Modelled from the spec (§4.1 `replaceNode`): replace the node with
id `target` by `v`, preserving its position among its siblings; the
replaced subtree (returned alongside) is destroyed. `none` when the id
is absent. -/
def replaceNodeF (target : Nat) (v : VNode) :
    List VNode → Option (VNode × List VNode)
  | [] => none
  | .mk i c a cs :: rest =>
      if i = target then some (.mk i c a cs, v :: rest)
      else
        match replaceNodeF target v cs with
        | some (sub, cs') => some (sub, .mk i c a cs' :: rest)
        | none =>
            match replaceNodeF target v rest with
            | some (sub, rest') => some (sub, .mk i c a cs :: rest')
            | none => none

/-- Modelled from the spec (§3 ImportMap): the source module and
imported symbol an alias refers to. -/
structure ImportEntry where
  source : String
  imported : String
deriving Repr, DecidableEq

/-- Modelled from the spec (§4.1 `addImportSpecifiers`): one import
specifier — the imported symbol and its local alias. -/
structure ImportSpecifier where
  imported : String
  localName : String
deriving Repr, DecidableEq

/-- Modelled from the spec (§4.1 `addImportSpecifiers`): process the
specifiers in order; an alias not yet present is added, an alias
already present with the same source and symbol is a no-op, an alias
present with a different binding fails with `ImportConflict`. -/
def addSpecifiers (source : String) (specs : List ImportSpecifier)
    (m : List (String × ImportEntry)) :
    Except Err (List (String × ImportEntry)) :=
  match specs with
  | [] => .ok m
  | sp :: rest =>
      match m.lookup sp.localName with
      | none => addSpecifiers source rest (m ++ [(sp.localName, ⟨source, sp.imported⟩)])
      | some e =>
          if e = ⟨source, sp.imported⟩ then addSpecifiers source rest m
          else .error .ImportConflict

/-- Modelled from the spec (§3 File, §4.1): a View File — its tree (a
forest of root nodes), its per-file import map keyed by local alias,
and the never-reused fresh-id counter. -/
structure ViewFile where
  tree : List VNode
  importMap : List (String × ImportEntry)
  nextId : Nat
deriving Repr

/-- The per-file invariant of the spec (§3 Node): identifiers are unique
per file, and all of them are below the fresh-id counter (so a fresh id
is never a reuse). -/
def FileWF (f : ViewFile) : Prop :=
  (nodeIdsF f.tree).Nodup ∧ ∀ i ∈ nodeIdsF f.tree, i < f.nextId

/-- Modelled from the spec (§4.1 `insertChild`): assign fresh ids to the
new node, then rewrite the tree; any failure happens before the file is
rebuilt, so a failed call returns the error and no new file. -/
def ViewFile.insertChild (f : ViewFile) (target : Nat) (raw : RawNode)
    (pos : InsertPos) : Except Err ViewFile :=
  match insertChildF target (assignIds raw f.nextId).1 pos f.tree with
  | none => .error .InvalidTarget
  | some (.error e) => .error e
  | some (.ok t') =>
      .ok { f with tree := t', nextId := (assignIds raw f.nextId).2 }

/-- Modelled from the spec (§4.1 `removeNode`). -/
def ViewFile.removeNode (f : ViewFile) (target : Nat) :
    Except Err ViewFile :=
  match removeNodeF target f.tree with
  | none => .error .NotFound
  | some (_, t') => .ok { f with tree := t' }

/-- Modelled from the spec (§4.1 `replaceNode`). -/
def ViewFile.replaceNode (f : ViewFile) (target : Nat) (raw : RawNode) :
    Except Err ViewFile :=
  match replaceNodeF target (assignIds raw f.nextId).1 f.tree with
  | none => .error .NotFound
  | some (_, t') =>
      .ok { f with tree := t', nextId := (assignIds raw f.nextId).2 }

/-- Modelled from the spec (§4.1 `addImportSpecifiers`) at the file
level. -/
def ViewFile.addImportSpecifiers (f : ViewFile) (source : String)
    (specs : List ImportSpecifier) : Except Err ViewFile :=
  match addSpecifiers source specs f.importMap with
  | .error e => .error e
  | .ok m => .ok { f with importMap := m }

/-- Modelled from the spec (§3 HistoryEntry): an immutable snapshot of
the affected file's tree before and after the edit. -/
structure HistoryEntry where
  filename : String
  before : List VNode
  after : List VNode
deriving Repr

/-- Modelled from the spec (§4.3): the history — a single linear entry
sequence and one cursor. -/
structure TangoHistory where
  entries : List HistoryEntry
  index : Nat
deriving Repr

/-- Modelled from the spec (§4.3 `record`): append at the cursor,
truncating any forward entries (the redo stack is cleared). -/
def TangoHistory.record (h : TangoHistory) (e : HistoryEntry) :
    TangoHistory :=
  ⟨h.entries.take h.index ++ [e], h.index + 1⟩

/-- Modelled from the spec (§4.3 `undo`): fails with `NothingToUndo` at
the sequence start; otherwise hands back the entry immediately before
the cursor (for the workspace to invert) and moves the cursor back. -/
def TangoHistory.undo (h : TangoHistory) :
    Except Err (HistoryEntry × TangoHistory) :=
  if h.index = 0 then .error .NothingToUndo
  else
    match h.entries[h.index - 1]? with
    | some e => .ok (e, ⟨h.entries, h.index - 1⟩)
    | none => .error .NothingToUndo

/-- Modelled from the spec (§4.3 `redo`): fails with `NothingToRedo` at
the sequence end; otherwise hands back the entry at the cursor (for the
workspace to re-apply) and advances it. -/
def TangoHistory.redo (h : TangoHistory) :
    Except Err (HistoryEntry × TangoHistory) :=
  match h.entries[h.index]? with
  | some e => .ok (e, ⟨h.entries, h.index + 1⟩)
  | none => .error .NothingToRedo

/-- Modelled from the spec (§3 Workspace, §4.4): the workspace aggregate
— the filename-keyed file registry, the history, and the two transient
single-slot references (selection and drag), each a `(filename, node
id)` pair or empty. -/
structure Workspace where
  files : List (String × ViewFile)
  history : TangoHistory
  selectSource : Option (String × Nat)
  dragSource : Option (String × Nat)

/-- Replaces the file stored under `fn`. -/
def updateFiles (files : List (String × ViewFile)) (fn : String)
    (f' : ViewFile) : List (String × ViewFile) :=
  files.map (fun p => if p.1 = fn then (p.1, f') else p)

/-- Modelled from the spec (§4.4): a transient reference is cleared when
it points into the destroyed subtree of file `fn`. -/
def clearRef (r : Option (String × Nat)) (fn : String)
    (removed : List Nat) : Option (String × Nat) :=
  match r with
  | none => none
  | some (fn2, i) => if fn2 = fn ∧ i ∈ removed then none else some (fn2, i)

/-- Second stage of the workspace `insertChild`: delegate to the
already-located file and commit on success. -/
def insertChildWFile (w : Workspace) (fn : String) (f : ViewFile)
    (target : Nat) (raw : RawNode) (pos : InsertPos) :
    Option Err × Workspace :=
  match f.insertChild target raw pos with
  | .error e => (some e, w)
  | .ok f' =>
      (none,
        { files := updateFiles w.files fn f',
          history := w.history.record ⟨fn, f.tree, f'.tree⟩,
          selectSource := w.selectSource,
          dragSource := w.dragSource })

/-- Modelled from the spec (§4.2, §7): the workspace `insertChild`
operation — locate the file, delegate to the file layer, and only on
full success commit the new file and record one history entry; a
failure returns the error and the untouched workspace. -/
def insertChildW (w : Workspace) (fn : String) (target : Nat)
    (raw : RawNode) (pos : InsertPos) : Option Err × Workspace :=
  match w.files.lookup fn with
  | none => (some .NotFound, w)
  | some f => insertChildWFile w fn f target raw pos

/-- Second stage of the workspace `removeNode`: remove in the located
file, clear references into the destroyed subtree, record history. -/
def removeNodeWFile (w : Workspace) (fn : String) (f : ViewFile)
    (target : Nat) : Option Err × Workspace :=
  match removeNodeF target f.tree with
  | none => (some .NotFound, w)
  | some (sub, t') =>
      (none,
        { files := updateFiles w.files fn { f with tree := t' },
          history := w.history.record ⟨fn, f.tree, t'⟩,
          selectSource := clearRef w.selectSource fn (nodeIdsF [sub]),
          dragSource := clearRef w.dragSource fn (nodeIdsF [sub]) })

/-- Modelled from the spec (§4.2, §4.4, §7): the workspace `removeNode`
operation — on success commit the new tree, record one history entry,
and clear any selection/drag reference into the destroyed subtree. -/
def removeNodeW (w : Workspace) (fn : String) (target : Nat) :
    Option Err × Workspace :=
  match w.files.lookup fn with
  | none => (some .NotFound, w)
  | some f => removeNodeWFile w fn f target

/-- Second stage of the workspace `replaceNode`: replace in the located
file, clear references into the destroyed (replaced) subtree, record
history. -/
def replaceNodeWFile (w : Workspace) (fn : String) (f : ViewFile)
    (target : Nat) (raw : RawNode) : Option Err × Workspace :=
  match replaceNodeF target (assignIds raw f.nextId).1 f.tree with
  | none => (some .NotFound, w)
  | some (sub, t') =>
      (none,
        { files := updateFiles w.files fn
            { f with tree := t', nextId := (assignIds raw f.nextId).2 },
          history := w.history.record ⟨fn, f.tree, t'⟩,
          selectSource := clearRef w.selectSource fn (nodeIdsF [sub]),
          dragSource := clearRef w.dragSource fn (nodeIdsF [sub]) })

/-- Modelled from the spec (§4.2, §4.4, §7): the workspace `replaceNode`
operation — the replaced subtree is destroyed, so references into it
are cleared. -/
def replaceNodeW (w : Workspace) (fn : String) (target : Nat)
    (raw : RawNode) : Option Err × Workspace :=
  match w.files.lookup fn with
  | none => (some .NotFound, w)
  | some f => replaceNodeWFile w fn f target raw

/-- Character-wise string prefix test (the path-prefix sharing relation
of the spec's `renameFolder`). -/
def strPre (p s : String) : Bool :=
  p.toList.isPrefixOf s.toList

/-- The new name a filename gets under `renameFolder`: filenames sharing
the old path prefix have it replaced by the new one, others are kept. -/
def renameKey (oldP newP fn : String) : String :=
  if strPre oldP fn then newP ++ (fn.drop oldP.length) else fn

/-- Modelled from the spec (§4.2 `renameFolder`, §8 scenario): rewrite
all filenames sharing the old path prefix atomically; if any target
name is already taken by a file that is not itself being moved, the
whole rename fails with `NameConflict` and nothing is changed. -/
def renameFolderW (w : Workspace) (oldP newP : String) :
    Option Err × Workspace :=
  let keys := w.files.map (fun p => p.1)
  let moved := keys.filter (fun fn => strPre oldP fn)
  let stay := keys.filter (fun fn => !(strPre oldP fn))
  if moved.any (fun fn => stay.contains (newP ++ (fn.drop oldP.length))) then
    (some .NameConflict, w)
  else
    (none,
      { w with files := w.files.map (fun p => (renameKey oldP newP p.1, p.2)) })

/-! ### C4: history linearity -/

/-- C4: the history is one linear sequence with one cursor — `record`
appends at the cursor and truncates all forward entries, so after
`undo()` followed by any new mutating operation (which records its
entry), a subsequent `redo()` fails with `NothingToRedo`. -/
theorem history_no_branching (h : TangoHistory) (e e1 : HistoryEntry)
    (h1 : TangoHistory)
    (hwf : h.index ≤ h.entries.length)
    (hu : h.undo = .ok (e1, h1)) :
    (∀ e2, (h1.record e2).entries = h1.entries.take h1.index ++ [e2]) ∧
      (h1.record e).redo = .error .NothingToRedo := by
  refine ⟨fun e2 => rfl, ?_⟩
  unfold TangoHistory.undo at hu
  split at hu
  · exact absurd hu (by simp)
  · rename_i hz
    split at hu
    · rename_i e' he
      rw [Except.ok.injEq, Prod.mk.injEq] at hu
      obtain ⟨-, hh1⟩ := hu
      subst hh1
      have hlen : (h.entries.take (h.index - 1) ++ [e]).length
          = (h.index - 1) + 1 := by
        have : h.index - 1 ≤ h.entries.length := le_trans (Nat.sub_le _ _) hwf
        simp [List.length_take, Nat.min_eq_left this]
      unfold TangoHistory.redo TangoHistory.record
      have hnone : (h.entries.take (h.index - 1) ++ [e])[(h.index - 1) + 1]?
          = none := by
        apply List.getElem?_eq_none_iff.mpr
        omega
      simp only [hnone]
    · exact absurd hu (by simp)

/-- Witness for C4 at a one-entry history with the cursor at the end. -/
theorem history_no_branching_witness :
    (TangoHistory.mk [HistoryEntry.mk "f" [] []] 1).index
        ≤ (TangoHistory.mk [HistoryEntry.mk "f" [] []] 1).entries.length ∧
      ((TangoHistory.mk [HistoryEntry.mk "f" [] []] 0).record
          (HistoryEntry.mk "g" [] [])).redo = .error .NothingToRedo :=
  ⟨by decide,
    (history_no_branching (TangoHistory.mk [HistoryEntry.mk "f" [] []] 1)
      (HistoryEntry.mk "g" [] []) (HistoryEntry.mk "f" [] [])
      (TangoHistory.mk [HistoryEntry.mk "f" [] []] 0) (by decide) rfl).2⟩

/-! ### C7: import specifiers -/

theorem lookup_append_of_some {m l : List (String × ImportEntry)}
    {a : String} {e : ImportEntry} (h : m.lookup a = some e) :
    (m ++ l).lookup a = some e := by
  induction m with
  | nil => simp [List.lookup] at h
  | cons hd tl ih =>
      obtain ⟨k, v⟩ := hd
      rw [List.cons_append, List.lookup_cons] at *
      cases hak : a == k with
      | true => rw [hak] at h; exact h
      | false => rw [hak] at h; exact ih h

theorem lookup_append_single_of_none {m : List (String × ImportEntry)}
    {a : String} {e : ImportEntry} (h : m.lookup a = none) :
    (m ++ [(a, e)]).lookup a = some e := by
  induction m with
  | nil => simp [List.lookup]
  | cons hd tl ih =>
      obtain ⟨k, v⟩ := hd
      rw [List.lookup_cons] at h
      rw [List.cons_append, List.lookup_cons]
      cases hak : a == k with
      | true => rw [hak] at h; exact absurd h (by simp)
      | false => rw [hak] at h; exact ih h

theorem addSpecifiers_mono {s : String} {specs : List ImportSpecifier}
    {m m' : List (String × ImportEntry)}
    (h : addSpecifiers s specs m = .ok m') :
    ∀ a e, m.lookup a = some e → m'.lookup a = some e := by
  induction specs generalizing m with
  | nil =>
      unfold addSpecifiers at h
      rw [Except.ok.injEq] at h
      subst h
      exact fun a e he => he
  | cons sp rest ih =>
      unfold addSpecifiers at h
      split at h
      · exact fun a e he => ih h a e (lookup_append_of_some he)
      · split at h
        · exact fun a e he => ih h a e he
        · exact absurd h (by simp)

theorem addSpecifiers_covers {s : String} {specs : List ImportSpecifier}
    {m m' : List (String × ImportEntry)}
    (h : addSpecifiers s specs m = .ok m') :
    ∀ sp ∈ specs, m'.lookup sp.localName = some ⟨s, sp.imported⟩ := by
  induction specs generalizing m with
  | nil => intro sp hsp; simp at hsp
  | cons sp0 rest ih =>
      intro sp hsp
      unfold addSpecifiers at h
      rcases List.mem_cons.mp hsp with hh | ht
      · subst hh
        split at h
        · rename_i hnone
          exact addSpecifiers_mono h _ _
            (lookup_append_single_of_none hnone)
        · split at h
          · rename_i e0 hsome heq
            subst heq
            exact addSpecifiers_mono h _ _ hsome
          · exact absurd h (by simp)
      · split at h
        · exact ih h sp ht
        · split at h
          · exact ih h sp ht
          · exact absurd h (by simp)

theorem addSpecifiers_of_covered {s : String} {specs : List ImportSpecifier}
    {m : List (String × ImportEntry)}
    (h : ∀ sp ∈ specs, m.lookup sp.localName = some ⟨s, sp.imported⟩) :
    addSpecifiers s specs m = .ok m := by
  induction specs with
  | nil => rfl
  | cons sp rest ih =>
      unfold addSpecifiers
      rw [h sp (List.mem_cons_self sp rest)]
      simp only [if_pos rfl]
      exact ih (fun sp' h' => h sp' (List.mem_cons_of_mem sp h'))

/-- C7: `addImportSpecifiers` is idempotent — a successful add is a
fixed point (running the same call again returns the file unchanged),
and in particular re-adding a symbol already present with the same
binding is a no-op — while adding a specifier whose alias is already
bound to a different source or symbol fails with `ImportConflict`. -/
theorem addImportSpecifiers_idempotent (f : ViewFile) (source : String)
    (specs : List ImportSpecifier) :
    (∀ f', f.addImportSpecifiers source specs = .ok f' →
        f'.addImportSpecifiers source specs = .ok f') ∧
      (∀ sp : ImportSpecifier, ∀ e,
          f.importMap.lookup sp.localName = some e →
          e = ⟨source, sp.imported⟩ →
          f.addImportSpecifiers source [sp] = .ok f) ∧
      (∀ sp : ImportSpecifier, ∀ e,
          f.importMap.lookup sp.localName = some e →
          e ≠ ⟨source, sp.imported⟩ →
          f.addImportSpecifiers source [sp] = .error .ImportConflict) := by
  refine ⟨?_, ?_, ?_⟩
  · intro f' hf
    unfold ViewFile.addImportSpecifiers at hf ⊢
    split at hf
    · exact absurd hf (by simp)
    · rename_i m hm
      rw [Except.ok.injEq] at hf
      subst hf
      have hcov := addSpecifiers_covers hm
      rw [addSpecifiers_of_covered hcov]
  · intro sp e hl he
    subst he
    unfold ViewFile.addImportSpecifiers
    rw [addSpecifiers_of_covered (by intro sp' h'; simp at h'; subst h'; exact hl)]
  · intro sp e hl he
    unfold ViewFile.addImportSpecifiers addSpecifiers
    rw [hl]
    simp only [if_neg he]

/-- Witness for C7: adding `Button` from `antd` to an empty map
succeeds; re-running the same call is the identity, and re-adding the
same alias bound to a different symbol fails with `ImportConflict`. -/
theorem addImportSpecifiers_idempotent_witness :
    (ViewFile.mk [] [("Button", ImportEntry.mk "antd" "Button")] 0).addImportSpecifiers
        "antd" [ImportSpecifier.mk "Button" "Button"]
      = .ok (ViewFile.mk [] [("Button", ImportEntry.mk "antd" "Button")] 0) ∧
    (ViewFile.mk [] [("Button", ImportEntry.mk "antd" "Button")] 0).addImportSpecifiers
        "antd" [ImportSpecifier.mk "Btn" "Button"]
      = .error .ImportConflict :=
  ⟨(addImportSpecifiers_idempotent
      (ViewFile.mk [] [("Button", ImportEntry.mk "antd" "Button")] 0) "antd"
      [ImportSpecifier.mk "Button" "Button"]).2.1
    (ImportSpecifier.mk "Button" "Button") (ImportEntry.mk "antd" "Button")
    rfl rfl,
   (addImportSpecifiers_idempotent
      (ViewFile.mk [] [("Button", ImportEntry.mk "antd" "Button")] 0) "antd"
      [ImportSpecifier.mk "Btn" "Button"]).2.2
    (ImportSpecifier.mk "Btn" "Button") (ImportEntry.mk "antd" "Button")
    rfl (by decide)⟩

/-! ### C5: renameFolder is all-or-nothing -/

/-- C5: `renameFolder` either rewrites every filename sharing the old
path prefix to the new prefix with no file lost (files without the
prefix are untouched), or — exactly when some target name is already
taken by a file that is not itself moved — fails with `NameConflict`
and leaves every file unchanged. -/
theorem renameFolder_all_or_nothing (w : Workspace) (oldP newP : String) :
    (∀ w', renameFolderW w oldP newP = (none, w') →
        w'.files.length = w.files.length ∧
          (∀ fn fd, (fn, fd) ∈ w.files →
              (renameKey oldP newP fn, fd) ∈ w'.files) ∧
          (∀ fn fd, (fn, fd) ∈ w.files → strPre oldP fn = false →
              (fn, fd) ∈ w'.files)) ∧
      (∀ e w', renameFolderW w oldP newP = (some e, w') →
          e = .NameConflict ∧ w' = w ∧
            ∃ fn, fn ∈ w.files.map (fun p => p.1) ∧
              strPre oldP fn = true ∧
              (newP ++ (fn.drop oldP.length)) ∈ w.files.map (fun p => p.1) ∧
              strPre oldP (newP ++ (fn.drop oldP.length)) = false) := by
  constructor
  · intro w' hw
    simp only [renameFolderW] at hw
    split at hw
    · exact absurd hw (by simp)
    · rw [Prod.mk.injEq] at hw
      obtain ⟨-, hw2⟩ := hw
      subst hw2
      refine ⟨by simp, ?_, ?_⟩
      · intro fn fd hmem
        simpa using
          List.mem_map_of_mem (fun p => (renameKey oldP newP p.1, p.2)) hmem
      · intro fn fd hmem hpre
        have := List.mem_map_of_mem
          (fun p => (renameKey oldP newP p.1, p.2)) hmem
        simpa [renameKey, hpre] using this
  · intro e w' hw
    simp only [renameFolderW] at hw
    split at hw
    · rename_i hconf
      rw [Prod.mk.injEq] at hw
      obtain ⟨he, hw2⟩ := hw
      refine ⟨(Option.some.inj he).symm, hw2.symm, ?_⟩
      rw [List.any_eq_true] at hconf
      obtain ⟨fn, hfn, htgt⟩ := hconf
      rw [List.mem_filter] at hfn
      rw [List.contains_eq_any_beq, List.any_eq_true] at htgt
      obtain ⟨tgt, htgtmem, htgteq⟩ := htgt
      rw [List.mem_filter] at htgtmem
      rw [beq_iff_eq] at htgteq
      subst htgteq
      refine ⟨fn, hfn.1, hfn.2, htgtmem.1, by
        simpa using htgtmem.2⟩
    · exact absurd hw (by simp)

/-- The two-file workspace of the spec's rename scenario, with short
names (`h` for the home folder, `l` for the landing folder). -/
def wsRenameEx : Workspace :=
  Workspace.mk
    [("h/i", ViewFile.mk [] [] 0), ("h/s", ViewFile.mk [] [] 0)]
    (TangoHistory.mk [] 0) none none

/-- Witness for C5 at the spec's scenario shape: renaming the folder
`h` to `l` in a two-file workspace moves `h/i` to `l/i`. -/
theorem renameFolder_all_or_nothing_witness :
    ("l/i", ViewFile.mk [] [] 0) ∈ (renameFolderW wsRenameEx "h" "l").2.files := by
  have h1 : (renameFolderW wsRenameEx "h" "l").1 = none := by decide
  have h := (renameFolder_all_or_nothing wsRenameEx "h" "l").1
    (renameFolderW wsRenameEx "h" "l").2 (by rw [← h1])
  have h2 := h.2.1 "h/i" (ViewFile.mk [] [] 0) (by simp [wsRenameEx])
  have h3 : renameKey "h" "l" "h/i" = "l/i" := by decide
  rw [h3] at h2
  exact h2

/-! ### C3: failed structural mutations are atomic -/

/-- C3: every structural-mutation operation that fails leaves the
workspace — the File tree, the ImportMap and the History — completely
unchanged (in particular the file's rendered text is identical, which
covers an `insertChild` with an invalid position on a valid parent),
and a History entry is recorded exactly when the operation fully
succeeds. -/
theorem structural_mutation_atomic (w : Workspace) (fn : String)
    (target : Nat) (raw : RawNode) (pos : InsertPos) :
    (∀ e w', insertChildW w fn target raw pos = (some e, w') →
        w' = w ∧
          (w'.files.lookup fn).map (fun f => renderVF f.tree)
            = (w.files.lookup fn).map (fun f => renderVF f.tree) ∧
          w'.history = w.history) ∧
      (∀ w', insertChildW w fn target raw pos = (none, w') →
          ∃ f f', w.files.lookup fn = some f ∧
            f.insertChild target raw pos = .ok f' ∧
            w'.history = w.history.record ⟨fn, f.tree, f'.tree⟩) ∧
      (∀ e w', removeNodeW w fn target = (some e, w') → w' = w) ∧
      (∀ w', removeNodeW w fn target = (none, w') →
          ∃ f sub t', w.files.lookup fn = some f ∧
            removeNodeF target f.tree = some (sub, t') ∧
            w'.history = w.history.record ⟨fn, f.tree, t'⟩) ∧
      (∀ e w', replaceNodeW w fn target raw = (some e, w') → w' = w) ∧
      (∀ w', replaceNodeW w fn target raw = (none, w') →
          ∃ f sub t', w.files.lookup fn = some f ∧
            replaceNodeF target (assignIds raw f.nextId).1 f.tree
              = some (sub, t') ∧
            w'.history = w.history.record ⟨fn, f.tree, t'⟩) := by
  refine ⟨?_, ?_, ?_, ?_, ?_, ?_⟩
  · intro e w' hw
    unfold insertChildW at hw
    split at hw
    · rw [Prod.mk.injEq] at hw
      exact ⟨hw.2.symm, by rw [hw.2], by rw [hw.2]⟩
    · unfold insertChildWFile at hw
      split at hw
      · rw [Prod.mk.injEq] at hw
        exact ⟨hw.2.symm, by rw [hw.2], by rw [hw.2]⟩
      · exact absurd hw (by simp)
  · intro w' hw
    unfold insertChildW at hw
    split at hw
    · exact absurd hw (by simp)
    · rename_i f hf
      unfold insertChildWFile at hw
      split at hw
      · exact absurd hw (by simp)
      · rename_i f' hf'
        rw [Prod.mk.injEq] at hw
        exact ⟨f, f', hf, hf', by rw [← hw.2]⟩
  · intro e w' hw
    unfold removeNodeW at hw
    split at hw
    · rw [Prod.mk.injEq] at hw
      exact hw.2.symm
    · unfold removeNodeWFile at hw
      split at hw
      · rw [Prod.mk.injEq] at hw
        exact hw.2.symm
      · exact absurd hw (by simp)
  · intro w' hw
    unfold removeNodeW at hw
    split at hw
    · exact absurd hw (by simp)
    · rename_i f hf
      unfold removeNodeWFile at hw
      split at hw
      · exact absurd hw (by simp)
      · rename_i sub t' hp
        rw [Prod.mk.injEq] at hw
        exact ⟨f, sub, t', hf, hp, by rw [← hw.2]⟩
  · intro e w' hw
    unfold replaceNodeW at hw
    split at hw
    · rw [Prod.mk.injEq] at hw
      exact hw.2.symm
    · unfold replaceNodeWFile at hw
      split at hw
      · rw [Prod.mk.injEq] at hw
        exact hw.2.symm
      · exact absurd hw (by simp)
  · intro w' hw
    unfold replaceNodeW at hw
    split at hw
    · exact absurd hw (by simp)
    · rename_i f hf
      unfold replaceNodeWFile at hw
      split at hw
      · exact absurd hw (by simp)
      · rename_i sub t' hp
        rw [Prod.mk.injEq] at hw
        exact ⟨f, sub, t', hf, hp, by rw [← hw.2]⟩

/-- A one-file workspace whose file holds the single node
`Page` (id 0) with no children. -/
def wsOneNode : Workspace :=
  Workspace.mk
    [("view", ViewFile.mk [VNode.mk 0 "Page" [] []] [] 1)]
    (TangoHistory.mk [] 0) none none

/-- Witness for C3: an `insertChild` targeting the valid parent `0` at
the invalid position `beforeSib 99` fails and leaves the workspace —
including its rendered text and history — unchanged. -/
theorem structural_mutation_atomic_witness :
    (insertChildW wsOneNode "view" 0 (RawNode.mk "Button" [] [])
        (InsertPos.beforeSib 99)).2 = wsOneNode := by
  have h1 : insertChildW wsOneNode "view" 0 (RawNode.mk "Button" [] [])
      (InsertPos.beforeSib 99)
      = (some Err.InvalidTarget,
         (insertChildW wsOneNode "view" 0 (RawNode.mk "Button" [] [])
           (InsertPos.beforeSib 99)).2) := by
    have : (insertChildW wsOneNode "view" 0 (RawNode.mk "Button" [] [])
        (InsertPos.beforeSib 99)).1 = some Err.InvalidTarget := by
      simp [insertChildW, insertChildWFile, wsOneNode, ViewFile.insertChild,
        insertChildF, insertAt, assignIds, assignIdsF, leafOnly,
        leafOnlyComponents, List.lookup]
    rw [← this]
  exact ((structural_mutation_atomic wsOneNode "view" 0
    (RawNode.mk "Button" [] []) (InsertPos.beforeSib 99)).1
    Err.InvalidTarget _ h1).1

/-! ### C6: destroyed nodes are not referenced -/

/-- C6: after a node-destroying operation (`removeNode`,
`replaceNode`), neither the selection nor the drag reference points at
a node of the destroyed subtree; in particular, a selection inside the
removed subtree is left empty. -/
theorem clearRef_spec (r : Option (String × Nat)) (fn : String)
    (removed : List Nat) :
    (∀ i, clearRef r fn removed = some (fn, i) → i ∉ removed) ∧
      (∀ i, r = some (fn, i) → i ∈ removed → clearRef r fn removed = none) := by
  constructor
  · intro i hsel
    unfold clearRef at hsel
    split at hsel
    · exact absurd hsel (by simp)
    · rename_i fn2 j
      split at hsel
      · exact absurd hsel (by simp)
      · rename_i hcond
        rw [Option.some.injEq, Prod.mk.injEq] at hsel
        intro hmem
        exact hcond ⟨hsel.1, hsel.2 ▸ hmem⟩
  · intro i hsel hmem
    rw [hsel]
    simp [clearRef, hmem]

theorem destroyed_nodes_unreferenced (w : Workspace) (fn : String)
    (target : Nat) (raw : RawNode) :
    (∀ w' f sub t', removeNodeW w fn target = (none, w') →
        w.files.lookup fn = some f →
        removeNodeF target f.tree = some (sub, t') →
        (∀ i, w'.selectSource = some (fn, i) → i ∉ nodeIdsF [sub]) ∧
          (∀ i, w'.dragSource = some (fn, i) → i ∉ nodeIdsF [sub]) ∧
          (∀ i, w.selectSource = some (fn, i) → i ∈ nodeIdsF [sub] →
              w'.selectSource = none)) ∧
      (∀ w' f sub t', replaceNodeW w fn target raw = (none, w') →
          w.files.lookup fn = some f →
          replaceNodeF target (assignIds raw f.nextId).1 f.tree
            = some (sub, t') →
          (∀ i, w'.selectSource = some (fn, i) → i ∉ nodeIdsF [sub]) ∧
            (∀ i, w'.dragSource = some (fn, i) → i ∉ nodeIdsF [sub]) ∧
            (∀ i, w.selectSource = some (fn, i) → i ∈ nodeIdsF [sub] →
                w'.selectSource = none)) := by
  constructor
  · intro w' f sub t' hw hf hrem
    unfold removeNodeW at hw
    split at hw
    · rename_i h0
      rw [hf] at h0
      exact absurd h0 (by simp)
    · rename_i f0 hf0
      rw [hf, Option.some.injEq] at hf0
      subst hf0
      unfold removeNodeWFile at hw
      split at hw
      · rename_i h0
        rw [hrem] at h0
        exact absurd h0 (by simp)
      · rename_i sub0 t0 h0
        rw [hrem, Option.some.injEq, Prod.mk.injEq] at h0
        obtain ⟨hs, ht⟩ := h0
        subst hs
        subst ht
        rw [Prod.mk.injEq] at hw
        obtain ⟨-, hw2⟩ := hw
        subst hw2
        exact ⟨(clearRef_spec w.selectSource fn (nodeIdsF [sub])).1,
          (clearRef_spec w.dragSource fn (nodeIdsF [sub])).1,
          (clearRef_spec w.selectSource fn (nodeIdsF [sub])).2⟩
  · intro w' f sub t' hw hf hrep
    unfold replaceNodeW at hw
    split at hw
    · rename_i h0
      rw [hf] at h0
      exact absurd h0 (by simp)
    · rename_i f0 hf0
      rw [hf, Option.some.injEq] at hf0
      subst hf0
      unfold replaceNodeWFile at hw
      split at hw
      · rename_i h0
        rw [hrep] at h0
        exact absurd h0 (by simp)
      · rename_i sub0 t0 h0
        rw [hrep, Option.some.injEq, Prod.mk.injEq] at h0
        obtain ⟨hs, ht⟩ := h0
        subst hs
        subst ht
        rw [Prod.mk.injEq] at hw
        obtain ⟨-, hw2⟩ := hw
        subst hw2
        exact ⟨(clearRef_spec w.selectSource fn (nodeIdsF [sub])).1,
          (clearRef_spec w.dragSource fn (nodeIdsF [sub])).1,
          (clearRef_spec w.selectSource fn (nodeIdsF [sub])).2⟩

/-- A one-file workspace with `Page (id 0) [Button (id 1)]` where the
`Button` node is selected. -/
def wsSelected : Workspace :=
  Workspace.mk
    [("view", ViewFile.mk [VNode.mk 0 "Page" [] [VNode.mk 1 "Button" [] []]] [] 2)]
    (TangoHistory.mk [] 0) (some ("view", 1)) none

/-- Witness for C6: selecting the `Button` node (id 1) and then
removing its owning subtree (the `Page` node, id 0) leaves the
selection empty. -/
theorem destroyed_nodes_unreferenced_witness :
    (removeNodeW wsSelected "view" 0).2.selectSource = none := by
  have h1 : (removeNodeW wsSelected "view" 0).1 = none := by
    simp [removeNodeW, removeNodeWFile, wsSelected, removeNodeF,
      List.lookup, clearRef, nodeIdsF]
  have hpair : removeNodeW wsSelected "view" 0
      = (none, (removeNodeW wsSelected "view" 0).2) := by
    rw [← h1]
  have h := ((destroyed_nodes_unreferenced wsSelected "view" 0
      (RawNode.mk "x" [] [])).1
    (removeNodeW wsSelected "view" 0).2
    (ViewFile.mk [VNode.mk 0 "Page" [] [VNode.mk 1 "Button" [] []]] [] 2)
    (VNode.mk 0 "Page" [] [VNode.mk 1 "Button" [] []]) []
    hpair (by simp [wsSelected, List.lookup])
    (by simp [removeNodeF])).2.2 1 rfl (by simp [nodeIdsF])
  exact h

/-! ### C1: parse/render round trip -/

theorem renderAttrs_cons (k v : String) (tl : List (String × String)) :
    renderAttrs ((k, v) :: tl) = Tok.nodeAttr k v :: renderAttrs tl := rfl

theorem renderF_cons (n : RawNode) (rest : List RawNode) :
    renderF (n :: rest) = renderF [n] ++ renderF rest := by
  cases n
  simp [renderF]

theorem parseLoop_open (c : String) (rest : List Tok) (stack : List Frame)
    (acc : List RawNode) :
    parseLoop (Tok.nodeOpen c :: rest) stack acc
      = parseLoop rest ((c, [], []) :: stack) acc := rfl

theorem parseLoop_attrTok (k v : String) (rest : List Tok) (c : String)
    (as : List (String × String)) (cs : List RawNode) (stack : List Frame)
    (acc : List RawNode) :
    parseLoop (Tok.nodeAttr k v :: rest) ((c, as, cs) :: stack) acc
      = parseLoop rest ((c, as ++ [(k, v)], cs) :: stack) acc := rfl

theorem parseLoop_close_cons (rest : List Tok) (c : String)
    (as : List (String × String)) (cs : List RawNode) (c2 : String)
    (as2 : List (String × String)) (cs2 : List RawNode)
    (stack : List Frame) (acc : List RawNode) :
    parseLoop (Tok.nodeClose :: rest) ((c, as, cs) :: (c2, as2, cs2) :: stack) acc
      = parseLoop rest
          ((c2, as2, RawNode.mk c as cs.reverse :: cs2) :: stack) acc := rfl

theorem parseLoop_close_one (rest : List Tok) (c : String)
    (as : List (String × String)) (cs : List RawNode) (acc : List RawNode) :
    parseLoop (Tok.nodeClose :: rest) [(c, as, cs)] acc
      = parseLoop rest [] (RawNode.mk c as cs.reverse :: acc) := rfl

theorem parseLoop_renderAttrs (as2 : List (String × String)) :
    ∀ (rest : List Tok) (c : String) (as : List (String × String))
      (cs : List RawNode) (stack : List Frame) (acc : List RawNode),
      parseLoop (renderAttrs as2 ++ rest) ((c, as, cs) :: stack) acc
        = parseLoop rest ((c, as ++ as2, cs) :: stack) acc := by
  induction as2 with
  | nil => intro rest c as cs stack acc; simp [renderAttrs]
  | cons a tl ih =>
      intro rest c as cs stack acc
      obtain ⟨k, v⟩ := a
      rw [renderAttrs_cons, List.cons_append, parseLoop_attrTok, ih]
      simp

theorem parseLoop_renderF_main (ns : List RawNode) :
    ∀ (rest : List Tok) (acc : List RawNode),
      (∀ (c : String) (as : List (String × String)) (cs : List RawNode)
          (stack : List Frame),
          parseLoop (renderF ns ++ rest) ((c, as, cs) :: stack) acc
            = parseLoop rest ((c, as, ns.reverse ++ cs) :: stack) acc) ∧
        parseLoop (renderF ns ++ rest) [] acc
          = parseLoop rest [] (ns.reverse ++ acc) := by
  refine rawIndF
    (fun n => ∀ (rest : List Tok) (acc : List RawNode),
      (∀ (c : String) (as : List (String × String)) (cs : List RawNode)
          (stack : List Frame),
          parseLoop (renderF [n] ++ rest) ((c, as, cs) :: stack) acc
            = parseLoop rest ((c, as, n :: cs) :: stack) acc) ∧
        parseLoop (renderF [n] ++ rest) [] acc
          = parseLoop rest [] (n :: acc))
    (fun ns => ∀ (rest : List Tok) (acc : List RawNode),
      (∀ (c : String) (as : List (String × String)) (cs : List RawNode)
          (stack : List Frame),
          parseLoop (renderF ns ++ rest) ((c, as, cs) :: stack) acc
            = parseLoop rest ((c, as, ns.reverse ++ cs) :: stack) acc) ∧
        parseLoop (renderF ns ++ rest) [] acc
          = parseLoop rest [] (ns.reverse ++ acc))
    ?_ ?_ ?_ ns
  · intro c a cs ihQ rest acc
    have hr : renderF [RawNode.mk c a cs] ++ rest
        = Tok.nodeOpen c ::
            (renderAttrs a ++ (renderF cs ++ (Tok.nodeClose :: rest))) := by
      simp [renderF]
    constructor
    · intro c0 as0 cs0 stack
      rw [hr, parseLoop_open, parseLoop_renderAttrs,
        (ihQ (Tok.nodeClose :: rest) acc).1 c ([] ++ a) []
          ((c0, as0, cs0) :: stack),
        parseLoop_close_cons]
      simp
    · rw [hr, parseLoop_open, parseLoop_renderAttrs,
        (ihQ (Tok.nodeClose :: rest) acc).1 c ([] ++ a) [] [],
        parseLoop_close_one]
      simp
  · intro rest acc
    constructor
    · intro c as cs stack
      simp [renderF]
    · simp [renderF]
  · intro n l ihP ihQ rest acc
    constructor
    · intro c as cs stack
      rw [renderF_cons, List.append_assoc,
        (ihP (renderF l ++ rest) acc).1 c as cs stack,
        (ihQ rest acc).1 c as (n :: cs) stack]
      simp
    · rw [renderF_cons, List.append_assoc,
        (ihP (renderF l ++ rest) acc).2, (ihQ rest (n :: acc)).2]
      simp

/-- The stack parser inverts rendering on every raw forest. -/
theorem parseLoop_renderF (ns : List RawNode) :
    parseLoop (renderF ns) [] [] = some ns := by
  have h := (parseLoop_renderF_main ns [] []).2
  simp only [List.append_nil] at h
  rw [h]
  simp [parseLoop]

theorem assignIdsF_cons (r : RawNode) (rest : List RawNode) (k : Nat) :
    assignIdsF (r :: rest) k
      = ((assignIds r k).1 :: (assignIdsF rest (assignIds r k).2).1,
         (assignIdsF rest (assignIds r k).2).2) := by
  cases r
  simp [assignIdsF, assignIds]

theorem stripIdsF_cons (v : VNode) (vs : List VNode) :
    stripIdsF (v :: vs) = stripId v :: stripIdsF vs := by
  cases v
  simp [stripIdsF, stripId]

/-- Stripping ids undoes id assignment. -/
theorem stripIdsF_assignIdsF :
    ∀ rs : List RawNode, ∀ k : Nat, stripIdsF (assignIdsF rs k).1 = rs := by
  refine rawIndF (fun r => ∀ k, stripId (assignIds r k).1 = r)
    (fun rs => ∀ k, stripIdsF (assignIdsF rs k).1 = rs) ?_ ?_ ?_
  · intro c a cs ih k
    simp [assignIds, stripId, ih]
  · intro k
    simp [assignIdsF, stripIdsF]
  · intro n l ihP ihQ k
    rw [assignIdsF_cons]
    simp only [stripIdsF_cons]
    rw [ihP, ihQ]

/-- C1: parsing is a left inverse of rendering on parse images — for
every file tree obtained from `parse`, `parse(render(tree))` yields a
structurally equal tree (here: the identical tree, ids included, since
ids are reassigned deterministically in preorder), and therefore
`render(parse(render(tree)))` equals `render(tree)`. -/
theorem parse_render_roundtrip (toks : List Tok) (fs : List VNode) (k : Nat)
    (h : parseToks toks = some (fs, k)) :
    parseToks (renderVF fs) = some (fs, k) ∧
      (∀ fs' k', parseToks (renderVF fs) = some (fs', k') →
          renderVF fs' = renderVF fs) := by
  unfold parseToks at h
  cases hp : parseLoop toks [] [] with
  | none => rw [hp] at h; simp at h
  | some rs =>
      rw [hp] at h
      simp only [Option.map_some'] at h
      have h2 : assignIdsF rs 0 = (fs, k) := Option.some.inj h
      have hstrip : stripIdsF fs = rs := by
        have h3 := stripIdsF_assignIdsF rs 0
        rw [h2] at h3
        exact h3
      have hren : renderVF fs = renderF rs := by
        unfold renderVF
        rw [hstrip]
      have hfirst : parseToks (renderVF fs) = some (fs, k) := by
        unfold parseToks
        rw [hren, parseLoop_renderF]
        simp [h2]
      refine ⟨hfirst, ?_⟩
      intro fs' k' h3
      rw [hfirst] at h3
      have h4 : fs = fs' := (Prod.mk.injEq _ _ _ _ ▸ Option.some.inj h3).1
      rw [← h4]

/-- Witness for C1: a two-node document (`Page` with a `title`
attribute containing a `Button`) parses, and re-parsing its rendering
returns the identical tree. -/
theorem parse_render_roundtrip_witness :
    parseToks [Tok.nodeOpen "Page", Tok.nodeAttr "title" "Hi",
        Tok.nodeOpen "Button", Tok.nodeClose, Tok.nodeClose]
      = some ([VNode.mk 0 "Page" [("title", "Hi")]
          [VNode.mk 1 "Button" [] []]], 2) ∧
      parseToks (renderVF
          [VNode.mk 0 "Page" [("title", "Hi")] [VNode.mk 1 "Button" [] []]])
        = some ([VNode.mk 0 "Page" [("title", "Hi")]
            [VNode.mk 1 "Button" [] []]], 2) := by
  have h1 : parseToks [Tok.nodeOpen "Page", Tok.nodeAttr "title" "Hi",
      Tok.nodeOpen "Button", Tok.nodeClose, Tok.nodeClose]
      = some ([VNode.mk 0 "Page" [("title", "Hi")]
          [VNode.mk 1 "Button" [] []]], 2) := by
    simp [parseToks, parseLoop, assignIdsF]
  exact ⟨h1, (parse_render_roundtrip _ _ _ h1).1⟩

/-! ### C2: node id stability and uniqueness -/

/-- Structural induction over a view forest by head node's children and
tail. -/
theorem vForestInd (Q : List VNode → Prop)
    (hnil : Q [])
    (hcons : ∀ i c a cs l, Q cs → Q l → Q (VNode.mk i c a cs :: l)) :
    ∀ l, Q l := by
  refine vIndF (fun n => Q n.children) Q ?_ hnil ?_
  · intro i c a cs h
    exact h
  · intro n l hP hQ
    cases n with
    | mk i c a cs => exact hcons i c a cs l hP hQ

def RawNode.children : RawNode → List RawNode
  | .mk _ _ cs => cs

/-- Structural induction over a raw forest by head node's children and
tail. -/
theorem rawForestInd (Q : List RawNode → Prop)
    (hnil : Q [])
    (hcons : ∀ c a cs l, Q cs → Q l → Q (RawNode.mk c a cs :: l)) :
    ∀ l, Q l := by
  refine rawIndF (fun n => Q n.children) Q ?_ hnil ?_
  · intro c a cs h
    exact h
  · intro n l hP hQ
    cases n with
    | mk c a cs => exact hcons c a cs l hP hQ

/-- The node signatures of a forest, as a multiset. -/
def msigs (vs : List VNode) :
    Multiset (Nat × String × List (String × String)) :=
  (sigsF vs : Multiset _)

/-- The node ids of a forest, as a multiset. -/
def mids (vs : List VNode) : Multiset Nat :=
  (nodeIdsF vs : Multiset Nat)

theorem msigs_nil : msigs [] = 0 := by
  simp [msigs, sigsF]

theorem msigs_cons (i : Nat) (c : String) (a : List (String × String))
    (cs l : List VNode) :
    msigs (VNode.mk i c a cs :: l) = {(i, c, a)} + msigs cs + msigs l := by
  simp [msigs, sigsF]

theorem msigs_cons' (v : VNode) (l : List VNode) :
    msigs (v :: l) = msigs [v] + msigs l := by
  cases v with
  | mk i c a cs =>
      rw [msigs_cons, msigs_cons, msigs_nil]
      abel

theorem mids_cons (i : Nat) (c : String) (a : List (String × String))
    (cs l : List VNode) :
    mids (VNode.mk i c a cs :: l) = {i} + mids cs + mids l := by
  simp [mids, nodeIdsF]

theorem mids_eq_map :
    ∀ vs : List VNode, mids vs = (msigs vs).map (fun s => s.1) := by
  refine vForestInd (fun vs => mids vs = (msigs vs).map (fun s => s.1)) ?_ ?_
  · simp [mids, msigs, nodeIdsF, sigsF]
  · intro i c a cs l ihc ihl
    rw [mids_cons, msigs_cons, ihc, ihl]
    simp

/-- `sigsF` respects forest permutation. -/
theorem sigsF_eq_flatMap (vs : List VNode) :
    sigsF vs = vs.flatMap (fun v => sigsF [v]) := by
  induction vs with
  | nil => simp [sigsF]
  | cons v l ih =>
      cases v with
      | mk i c a cs =>
          simp only [List.flatMap_cons, ← ih]
          simp [sigsF]

theorem msigs_perm {vs1 vs2 : List VNode} (h : vs1.Perm vs2) :
    msigs vs1 = msigs vs2 := by
  unfold msigs
  rw [sigsF_eq_flatMap vs1, sigsF_eq_flatMap vs2]
  exact Multiset.coe_eq_coe.mpr (h.flatMap_right (fun v => sigsF [v]))

theorem insertAt_perm {children : List VNode} {v : VNode} {pos : InsertPos}
    {cs' : List VNode} (h : insertAt children v pos = some cs') :
    cs'.Perm (v :: children) := by
  cases pos with
  | append =>
      simp only [insertAt, Option.some.injEq] at h
      subst h
      exact List.perm_append_comm.trans (by simp)
  | prepend =>
      simp only [insertAt, Option.some.injEq] at h
      subst h
      exact List.Perm.refl _
  | beforeSib s =>
      simp only [insertAt] at h
      split at h
      · rename_i idx hidx
        rw [Option.some.injEq] at h
        subst h
        have hmid := @List.perm_middle _ v (children.take idx)
          (children.drop idx)
        rw [List.take_append_drop] at hmid
        exact hmid
      · exact absurd h (by simp)
  | afterSib s =>
      simp only [insertAt] at h
      split at h
      · rename_i idx hidx
        rw [Option.some.injEq] at h
        subst h
        have hmid := @List.perm_middle _ v (children.take (idx + 1))
          (children.drop (idx + 1))
        rw [List.take_append_drop] at hmid
        exact hmid
      · exact absurd h (by simp)

/-- `insertChildF` success: the new forest's signatures are the old ones
plus the freshly inserted subtree's. -/
theorem insertChildF_msigs :
    ∀ vs : List VNode, ∀ (target : Nat) (v : VNode) (pos : InsertPos)
      (out : List VNode),
      insertChildF target v pos vs = some (.ok out) →
      msigs out = msigs [v] + msigs vs := by
  refine vForestInd (fun vs => ∀ target v pos out,
    insertChildF target v pos vs = some (.ok out) →
    msigs out = msigs [v] + msigs vs) ?_ ?_
  · intro target v pos out h
    exact absurd h (by simp [insertChildF])
  · intro i c a cs l ihc ihl target v pos out h
    unfold insertChildF at h
    by_cases hit : i = target
    · rw [if_pos hit, Option.some.injEq] at h
      split at h
      · exact absurd h (by simp)
      · split at h
        · rename_i cs' hins
          rw [Except.ok.injEq] at h
          subst h
          have hp := msigs_perm (insertAt_perm hins)
          rw [msigs_cons' v cs] at hp
          rw [msigs_cons, msigs_cons, hp]
          abel
        · exact absurd h (by simp)
    · rw [if_neg hit] at h
      split at h
      · rename_i cs' hcs
        rw [Option.some.injEq, Except.ok.injEq] at h
        subst h
        have := ihc target v pos cs' hcs
        rw [msigs_cons, msigs_cons, this]
        abel
      · exact absurd h (by simp)
      · split at h
        · rename_i rest' hrest
          rw [Option.some.injEq, Except.ok.injEq] at h
          subst h
          have := ihl target v pos rest' hrest
          rw [msigs_cons, msigs_cons, this]
          abel
        · exact absurd h (by simp)
        · exact absurd h (by simp)

/-- `removeNodeF` success: the old forest's signatures split into the
detached subtree's and the remaining forest's. -/
theorem removeNodeF_msigs :
    ∀ vs : List VNode, ∀ (target : Nat) (sub : VNode) (vs' : List VNode),
      removeNodeF target vs = some (sub, vs') →
      msigs vs = msigs [sub] + msigs vs' := by
  refine vForestInd (fun vs => ∀ target sub vs',
    removeNodeF target vs = some (sub, vs') →
    msigs vs = msigs [sub] + msigs vs') ?_ ?_
  · intro target sub vs' h
    exact absurd h (by simp [removeNodeF])
  · intro i c a cs l ihc ihl target sub vs' h
    unfold removeNodeF at h
    by_cases hit : i = target
    · rw [if_pos hit, Option.some.injEq, Prod.mk.injEq] at h
      obtain ⟨hs, ht⟩ := h
      subst hs
      subst ht
      exact msigs_cons' _ _
    · rw [if_neg hit] at h
      split at h
      · rename_i sub0 cs' hcs
        rw [Option.some.injEq, Prod.mk.injEq] at h
        obtain ⟨hs, ht⟩ := h
        subst ht
        have hx := ihc target sub0 cs' hcs
        rw [hs] at hx
        rw [msigs_cons, msigs_cons, hx]
        abel
      · split at h
        · rename_i sub0 rest' hrest
          rw [Option.some.injEq, Prod.mk.injEq] at h
          obtain ⟨hs, ht⟩ := h
          subst ht
          have hx := ihl target sub0 rest' hrest
          rw [hs] at hx
          rw [msigs_cons, msigs_cons, hx]
          abel
        · exact absurd h (by simp)

/-- `replaceNodeF` success: old signatures plus the new subtree's equal
the replaced subtree's plus the new forest's. -/
theorem replaceNodeF_msigs :
    ∀ vs : List VNode, ∀ (target : Nat) (v : VNode) (sub : VNode)
      (vs' : List VNode),
      replaceNodeF target v vs = some (sub, vs') →
      msigs vs + msigs [v] = msigs [sub] + msigs vs' := by
  refine vForestInd (fun vs => ∀ target v sub vs',
    replaceNodeF target v vs = some (sub, vs') →
    msigs vs + msigs [v] = msigs [sub] + msigs vs') ?_ ?_
  · intro target v sub vs' h
    exact absurd h (by simp [replaceNodeF])
  · intro i c a cs l ihc ihl target v sub vs' h
    unfold replaceNodeF at h
    by_cases hit : i = target
    · rw [if_pos hit, Option.some.injEq, Prod.mk.injEq] at h
      obtain ⟨hs, ht⟩ := h
      subst hs
      subst ht
      rw [msigs_cons' (VNode.mk i c a cs) l, msigs_cons' v l]
      abel
    · rw [if_neg hit] at h
      split at h
      · rename_i sub0 cs' hcs
        rw [Option.some.injEq, Prod.mk.injEq] at h
        obtain ⟨hs, ht⟩ := h
        subst ht
        subst hs
        have hx := ihc target v sub0 cs' hcs
        rw [msigs_cons, msigs_cons]
        calc {(i, c, a)} + msigs cs + msigs l + msigs [v]
            = ({(i, c, a)} : Multiset _) + (msigs cs + msigs [v]) + msigs l := by
              abel
          _ = {(i, c, a)} + (msigs [sub0] + msigs cs') + msigs l := by
              rw [hx]
          _ = msigs [sub0] + ({(i, c, a)} + msigs cs' + msigs l) := by abel
      · split at h
        · rename_i sub0 rest' hrest
          rw [Option.some.injEq, Prod.mk.injEq] at h
          obtain ⟨hs, ht⟩ := h
          subst ht
          subst hs
          have hx := ihl target v sub0 rest' hrest
          rw [msigs_cons, msigs_cons]
          calc {(i, c, a)} + msigs cs + msigs l + msigs [v]
              = ({(i, c, a)} : Multiset _) + msigs cs + (msigs l + msigs [v]) := by
                abel
            _ = {(i, c, a)} + msigs cs + (msigs [sub0] + msigs rest') := by
                rw [hx]
            _ = msigs [sub0] + ({(i, c, a)} + msigs cs + msigs rest') := by abel
        · exact absurd h (by simp)

/-- Id assignment returns the counter advanced by the subtree size. -/
theorem assignIdsF_snd :
    ∀ rs : List RawNode, ∀ k : Nat, (assignIdsF rs k).2 = k + sizeF rs := by
  refine rawForestInd (fun rs => ∀ k, (assignIdsF rs k).2 = k + sizeF rs)
    ?_ ?_
  · intro k
    simp [assignIdsF, sizeF]
  · intro c a cs l ihc ihl k
    simp only [assignIdsF, sizeF]
    rw [ihl, ihc]
    omega

/-- Preorder id assignment from `k` yields exactly the id interval
`[k, k + size)`, in order. -/
theorem nodeIdsF_assignIdsF :
    ∀ rs : List RawNode, ∀ k : Nat,
      nodeIdsF (assignIdsF rs k).1 = List.range' k (sizeF rs) := by
  refine rawForestInd (fun rs => ∀ k,
    nodeIdsF (assignIdsF rs k).1 = List.range' k (sizeF rs)) ?_ ?_
  · intro k
    simp [assignIdsF, nodeIdsF, sizeF]
  · intro c a cs l ihc ihl k
    simp only [assignIdsF, nodeIdsF]
    rw [ihc, ihl, assignIdsF_snd]
    rw [List.range'_append_1 (k + 1) (sizeF cs) (sizeF l)]
    have hsz : sizeF (RawNode.mk c a cs :: l) = (sizeF l + sizeF cs) + 1 := by
      simp only [sizeF]
      omega
    rw [hsz, List.range'_succ]

/-- The single-node form of id assignment. -/
theorem assignIdsF_singleton (r : RawNode) (k : Nat) :
    assignIdsF [r] k = ([(assignIds r k).1], (assignIds r k).2) := by
  rw [assignIdsF_cons]
  simp [assignIdsF]

theorem assignIds_snd (r : RawNode) (k : Nat) :
    (assignIds r k).2 = k + sizeF [r] := by
  have h := assignIdsF_snd [r] k
  rw [assignIdsF_singleton] at h
  exact h

theorem assignIds_nodeIds (r : RawNode) (k : Nat) :
    nodeIdsF [(assignIds r k).1] = List.range' k (sizeF [r]) := by
  have h := nodeIdsF_assignIdsF [r] k
  rw [assignIdsF_singleton] at h
  exact h

theorem mids_def (vs : List VNode) : mids vs = (nodeIdsF vs : Multiset Nat) :=
  rfl

theorem mem_msigs {s : Nat × String × List (String × String)}
    {vs : List VNode} : s ∈ msigs vs ↔ s ∈ sigsF vs :=
  Multiset.mem_coe

theorem mem_mids {i : Nat} {vs : List VNode} :
    i ∈ mids vs ↔ i ∈ nodeIdsF vs :=
  Multiset.mem_coe

/-- A node signature's id is one of the forest's ids. -/
theorem sig_fst_mem {s : Nat × String × List (String × String)}
    {vs : List VNode} (h : s ∈ msigs vs) : s.1 ∈ mids vs := by
  rw [mids_eq_map]
  exact Multiset.mem_map_of_mem (fun s => s.1) h

/-- C2: for a well-formed View File (unique ids, all below the fresh-id
counter), each structural edit — `insertChild`, `removeNode`,
`replaceNode` targeting node X — preserves the signature (id,
component, attributes) of every node outside X's removed subtree, and
keeps the file well-formed, so node ids stay unique and unrelated nodes
are never renumbered. -/
theorem node_id_stability (f : ViewFile) (target : Nat) (raw : RawNode)
    (pos : InsertPos) (hwf : FileWF f) :
    (∀ f', f.insertChild target raw pos = .ok f' →
        (∀ s ∈ sigsF f.tree, s ∈ sigsF f'.tree) ∧ FileWF f') ∧
      (∀ f', f.removeNode target = .ok f' →
          ∃ sub, removeNodeF target f.tree = some (sub, f'.tree) ∧
            (∀ s ∈ sigsF f.tree, s.1 ∉ nodeIdsF [sub] → s ∈ sigsF f'.tree) ∧
            FileWF f') ∧
      (∀ f', f.replaceNode target raw = .ok f' →
          ∃ sub, replaceNodeF target (assignIds raw f.nextId).1 f.tree
              = some (sub, f'.tree) ∧
            (∀ s ∈ sigsF f.tree, s.1 ∉ nodeIdsF [sub] → s ∈ sigsF f'.tree) ∧
            FileWF f') := by
  obtain ⟨hnd, hbound⟩ := hwf
  have hndm : (mids f.tree).Nodup := Multiset.coe_nodup.mpr hnd
  have hvmids : mids [(assignIds raw f.nextId).1]
      = ((List.range' f.nextId (sizeF [raw]) : List Nat) : Multiset Nat) := by
    rw [mids_def, assignIds_nodeIds]
  have hdisj : Disjoint (mids [(assignIds raw f.nextId).1]) (mids f.tree) := by
    rw [Multiset.disjoint_left]
    intro a ha hb
    rw [hvmids, Multiset.mem_coe] at ha
    have h1 := (List.mem_range'_1.mp ha).1
    have h2 := hbound a (mem_mids.mp hb)
    omega
  have hvnodup : (mids [(assignIds raw f.nextId).1]).Nodup := by
    rw [hvmids]
    exact Multiset.coe_nodup.mpr (List.nodup_range' _ _)
  refine ⟨?_, ?_, ?_⟩
  · intro f' h
    unfold ViewFile.insertChild at h
    split at h
    · exact absurd h (by simp)
    · exact absurd h (by simp)
    · rename_i t' hins
      rw [Except.ok.injEq] at h
      subst h
      have hm := insertChildF_msigs f.tree target (assignIds raw f.nextId).1
        pos t' hins
      constructor
      · intro s hs
        have h1 : s ∈ msigs t' := by
          rw [hm]
          exact Multiset.mem_add.mpr (Or.inr (mem_msigs.mpr hs))
        exact mem_msigs.mp h1
      · have hmid : mids t' = mids [(assignIds raw f.nextId).1] + mids f.tree := by
          rw [mids_eq_map, hm, Multiset.map_add, ← mids_eq_map, ← mids_eq_map]
        constructor
        · have : (mids t').Nodup := by
            rw [hmid]
            exact Multiset.nodup_add.mpr ⟨hvnodup, hndm, hdisj⟩
          exact Multiset.coe_nodup.mp this
        · intro i hi
          have h1 : i ∈ mids t' := mem_mids.mpr hi
          rw [hmid] at h1
          rcases Multiset.mem_add.mp h1 with hiv | hit
          · rw [hvmids, Multiset.mem_coe] at hiv
            have := (List.mem_range'_1.mp hiv).2
            show i < (assignIds raw f.nextId).2
            rw [assignIds_snd]
            omega
          · have := hbound i (mem_mids.mp hit)
            show i < (assignIds raw f.nextId).2
            rw [assignIds_snd]
            omega
  · intro f' h
    unfold ViewFile.removeNode at h
    split at h
    · exact absurd h (by simp)
    · rename_i sub t' hrem
      rw [Except.ok.injEq] at h
      subst h
      refine ⟨sub, hrem, ?_, ?_⟩
      · intro s hs hnotin
        have hm := removeNodeF_msigs f.tree target sub t' hrem
        have h1 : s ∈ msigs [sub] + msigs t' := by
          rw [← hm]
          exact mem_msigs.mpr hs
        rcases Multiset.mem_add.mp h1 with hsub | ht
        · exact absurd (mem_mids.mp (sig_fst_mem hsub)) hnotin
        · exact mem_msigs.mp ht
      · have hm := removeNodeF_msigs f.tree target sub t' hrem
        have hmid : mids f.tree = mids [sub] + mids t' := by
          rw [mids_eq_map, hm, Multiset.map_add, ← mids_eq_map, ← mids_eq_map]
        constructor
        · have h2 : (mids [sub] + mids t').Nodup := by
            rw [← hmid]
            exact hndm
          exact Multiset.coe_nodup.mp (Multiset.nodup_add.mp h2).2.1
        · intro i hi
          apply hbound
          apply mem_mids.mp
          rw [hmid]
          exact Multiset.mem_add.mpr (Or.inr (mem_mids.mpr hi))
  · intro f' h
    unfold ViewFile.replaceNode at h
    split at h
    · exact absurd h (by simp)
    · rename_i sub t' hrep
      rw [Except.ok.injEq] at h
      subst h
      refine ⟨sub, hrep, ?_, ?_⟩
      · intro s hs hnotin
        have hm := replaceNodeF_msigs f.tree target
          (assignIds raw f.nextId).1 sub t' hrep
        have h1 : s ∈ msigs [sub] + msigs t' := by
          rw [← hm]
          exact Multiset.mem_add.mpr (Or.inl (mem_msigs.mpr hs))
        rcases Multiset.mem_add.mp h1 with hsub | ht
        · exact absurd (mem_mids.mp (sig_fst_mem hsub)) hnotin
        · exact mem_msigs.mp ht
      · have hm := replaceNodeF_msigs f.tree target
          (assignIds raw f.nextId).1 sub t' hrep
        have hmid : mids f.tree + mids [(assignIds raw f.nextId).1]
            = mids [sub] + mids t' := by
          rw [mids_eq_map, mids_eq_map, ← Multiset.map_add, hm,
            Multiset.map_add, ← mids_eq_map, ← mids_eq_map]
        have hlhs : (mids f.tree + mids [(assignIds raw f.nextId).1]).Nodup :=
          Multiset.nodup_add.mpr ⟨hndm, hvnodup, hdisj.symm⟩
        constructor
        · rw [hmid] at hlhs
          exact Multiset.coe_nodup.mp (Multiset.nodup_add.mp hlhs).2.1
        · intro i hi
          have h1 : i ∈ mids [sub] + mids t' :=
            Multiset.mem_add.mpr (Or.inr (mem_mids.mpr hi))
          rw [← hmid] at h1
          show i < (assignIds raw f.nextId).2
          rw [assignIds_snd]
          rcases Multiset.mem_add.mp h1 with hit | hiv
          · have := hbound i (mem_mids.mp hit)
            omega
          · rw [hvmids, Multiset.mem_coe] at hiv
            have := (List.mem_range'_1.mp hiv).2
            omega

/-- Witness for C2: appending a `Button` under the `Page` root of a
well-formed one-node file keeps the root's signature `(0, Page, [])`
and yields a well-formed two-node file. -/
theorem node_id_stability_witness :
    (0, "Page", ([] : List (String × String))) ∈
        sigsF [VNode.mk 0 "Page" [] [VNode.mk 1 "Button" [] []]] ∧
      FileWF (ViewFile.mk
        [VNode.mk 0 "Page" [] [VNode.mk 1 "Button" [] []]] [] 2) := by
  have hwf : FileWF (ViewFile.mk [VNode.mk 0 "Page" [] []] [] 1) := by
    unfold FileWF
    constructor
    · simp [nodeIdsF]
    · simp [nodeIdsF]
  have hins : (ViewFile.mk [VNode.mk 0 "Page" [] []] [] 1).insertChild 0
      (RawNode.mk "Button" [] []) InsertPos.append
      = .ok (ViewFile.mk
          [VNode.mk 0 "Page" [] [VNode.mk 1 "Button" [] []]] [] 2) := by
    simp [ViewFile.insertChild, insertChildF, insertAt, assignIds,
      assignIdsF, leafOnly, leafOnlyComponents]
  have h := (node_id_stability (ViewFile.mk [VNode.mk 0 "Page" [] []] [] 1) 0
    (RawNode.mk "Button" [] []) InsertPos.append hwf).1 _ hins
  exact ⟨h.1 (0, "Page", []) (by simp [sigsF]), h.2⟩

end Tango
